import Mathlib

/-!
Verification of the text-processing pipeline in `zoom_summary_to_agenda.py`.

Python strings are modelled as `List Char` (`Str`).  `str.strip()` is `trim`,
`str.splitlines()` is `splitlines`, `str.lower()` is modelled on the ASCII
range (all recognised section keywords are ASCII), and the regular-expression
split on the pattern "lookbehind sentence-terminal punctuation, then one or
more whitespace characters" is modelled by the character-level scanner
`reSplitAux` (left-to-right scan, greedy whitespace run).  Fallible actions
(file read/write) are modelled explicitly by `FileRead` / `Outcome`.
-/

set_option maxHeartbeats 1000000

abbrev Str := List Char

/-- Character data of a Lean string literal, used to write concrete inputs. -/
def strL (s : String) : Str := s.data

/-- Python whitespace (the set accepted by `str.isspace`, which is also the
set matched by the regex whitespace class for text patterns): ASCII
whitespace, the C1 separator block, NEL, NBSP and the Unicode spaces. -/
def isWS (c : Char) : Bool :=
  c == ' ' || c == '\t' || c == '\n' || c == '\r' || c == '\x0b' || c == '\x0c' ||
  c == '\x1c' || c == '\x1d' || c == '\x1e' || c == '\x1f' || c == '\x85' || c == '\xa0' ||
  c == '\u1680' || ('\u2000' ≤ c && c ≤ '\u200a') || c == '\u2028' || c == '\u2029' ||
  c == '\u202f' || c == '\u205f' || c == '\u3000'

/-- Sentence-terminal punctuation used by `SENTENCE_END_RE` and the title
test in `parse_summary_topics`. -/
def isSentEnd (c : Char) : Bool := c == '.' || c == '!' || c == '?'

/-- Line boundaries recognised by Python `str.splitlines`. -/
def isLineBreakChar (c : Char) : Bool :=
  c == '\n' || c == '\r' || c == '\x0b' || c == '\x0c' || c == '\x1c' ||
  c == '\x1d' || c == '\x1e' || c == '\x85' || c == '\u2028' || c == '\u2029'

/-- ASCII lowering; `str.lower()` restricted to the ASCII letters, which is
all the section-keyword lookup can ever match (every keyword is ASCII). -/
def lowerChar (c : Char) : Char :=
  if 'A' ≤ c ∧ c ≤ 'Z' then Char.ofNat (c.toNat + 32) else c

/-- Python `str.strip()`: drop whitespace from both ends. -/
def trim (l : Str) : Str :=
  ((l.dropWhile isWS).reverse.dropWhile isWS).reverse

/-- Python `str.splitlines`: worker.  `cur` is the reversed current line. -/
def splitlinesAux (cur : Str) : Str → List Str
  | [] => if cur.isEmpty then [] else [cur.reverse]
  | '\r' :: '\n' :: rest => cur.reverse :: splitlinesAux [] rest
  | c :: rest =>
    if isLineBreakChar c then cur.reverse :: splitlinesAux [] rest
    else splitlinesAux (c :: cur) rest

/-- Python `str.splitlines` (no trailing empty line; CRLF is one break). -/
def splitlines (t : Str) : List Str := splitlinesAux [] t

/-- Python `sep.join(parts)`. -/
def joinSep (sep : Str) : List Str → Str
  | [] => []
  | [x] => x
  | x :: y :: xs => x ++ sep ++ joinSep sep (y :: xs)

/-- Canonical bucket key "quick recap". -/
def qrKey : Str := strL "quick recap"

/-- Canonical bucket key "next steps". -/
def nsKey : Str := strL "next steps"

/-- Canonical bucket key "summary". -/
def smKey : Str := strL "summary"

/-- The `SECTION_NAMES` table of the script: keyword (lowercase, optional
trailing colon) to canonical key, in source order. -/
def SECTION_NAMES : List (Str × Str) :=
  [(strL "quick recap", qrKey), (strL "quick recap:", qrKey),
   (strL "recap", qrKey), (strL "recap:", qrKey),
   (strL "next steps", nsKey), (strL "next steps:", nsKey),
   (strL "actions", nsKey), (strL "actions:", nsKey),
   (strL "summary", smKey), (strL "summary:", smKey)]

/-- The header lookup `SECTION_NAMES.get(line.lower())` of `split_sections`. -/
def sectionKeyOf (line : Str) : Option Str :=
  List.lookup (line.map lowerChar) SECTION_NAMES

/-- The initial `sections` dict, as an association list in insertion order. -/
def initSections : List (Str × List Str) := [(qrKey, []), (nsKey, []), (smKey, [])]

/-- `sections[k].append(v)` on the association-list model of the dict. -/
def appendAt (k : Str) (v : Str) : List (Str × List Str) → List (Str × List Str)
  | [] => []
  | (k', vs) :: rest =>
    if k' = k then (k', vs ++ [v]) :: rest else (k', vs) :: appendAt k v rest

/-- The loop of `split_sections` (lines 63-79): skip blank lines, switch the
current key on a header line, drop content lines while no key is active,
append trimmed content lines to the current bucket. -/
def splitSectionsAux (secs : List (Str × List Str)) (cur : Option Str) :
    List Str → List (Str × List Str)
  | [] => secs
  | raw :: rest =>
    let line := trim raw
    if line = [] then splitSectionsAux secs cur rest
    else
      match sectionKeyOf line with
      | some k => splitSectionsAux secs (some k) rest
      | none =>
        match cur with
        | none => splitSectionsAux secs cur rest
        | some k => splitSectionsAux (appendAt k line secs) (some k) rest

/-- `split_sections` of the script. -/
def split_sections (lines : List Str) : List (Str × List Str) :=
  splitSectionsAux initSections none lines

/-- Dictionary read `sections[k]` (the three keys are always present, so the
default branch is unreachable on the values `split_sections` produces). -/
def getSec (secs : List (Str × List Str)) (k : Str) : List Str :=
  (List.lookup k secs).getD []

/-- One step of the section splitter as described by the specification:
blank lines are skipped, a recognised header switches the pointer and is
discarded, non-header lines before the first header are discarded, all other
lines are appended (trimmed) to the bucket of the most recent header. -/
def splitStepSpec (st : List (Str × List Str) × Option Str) (raw : Str) :
    List (Str × List Str) × Option Str :=
  let line := trim raw
  if line = [] then st
  else
    match sectionKeyOf line with
    | some k => (st.1, some k)
    | none =>
      match st.2 with
      | none => st
      | some k => (appendAt k line st.1, some k)

/-- The lookbehind test of the scanner: the previous character (head of the
reversed current piece) is sentence-terminal punctuation. -/
def punctHead : Str → Bool
  | [] => false
  | p :: _ => isSentEnd p

/-- Scanner for `re.split` on the sentence-boundary pattern (lines 82-87):
`cur` is the reversed current piece, `skip` is true while the scanner is
inside a (greedy) whitespace run that started a match.  A match starts at a
whitespace character whose preceding character is sentence-terminal
punctuation (the lookbehind), and consumes the maximal whitespace run. -/
def reSplitAux (cur : Str) (skip : Bool) : Str → List Str
  | [] => [cur.reverse]
  | c :: rest =>
    if skip then
      if isWS c then reSplitAux cur true rest
      else reSplitAux [c] false rest
    else
      if isWS c && punctHead cur then
        cur.reverse :: reSplitAux [] true rest
      else
        reSplitAux (c :: cur) false rest

/-- `SENTENCE_END_RE.split(paragraph)`. -/
def regexSplit (p : Str) : List Str := reSplitAux [] false p

/-- `sentences_from_paragraph` (lines 85-87): strip the pieces, drop the
blank ones, and fall back to the whole stripped paragraph. -/
def sentences_from_paragraph (p : Str) : List Str :=
  let parts := (regexSplit p).filterMap fun part =>
    if trim part = [] then none else some (trim part)
  if parts = [] then [trim p] else parts

/-- `parse_quick_recap` (lines 90-94). -/
def parse_quick_recap : List Str → List Str
  | [] => []
  | l :: rest => sentences_from_paragraph l ++ parse_quick_recap rest

/-- Specification-side sentence boundary finder: the first split point of a
paragraph is immediately after a sentence-terminal punctuation mark followed
by whitespace; the boundary consumes the whole whitespace run.  Returns the
piece before the boundary and the remainder after the run. -/
def findSplit : Str → Option (Str × Str)
  | [] => none
  | [_] => none
  | a :: b :: rest =>
    if isSentEnd a && isWS b then some ([a], rest.dropWhile isWS)
    else (findSplit (b :: rest)).map fun pr => (a :: pr.1, pr.2)

/-- Specification-side splitter, fuelled (the remainder returned by
`findSplit` is strictly shorter, so `length + 1` fuel always suffices). -/
def specSplitF : Nat → Str → List Str
  | 0, p => [p]
  | n + 1, p =>
    match findSplit p with
    | none => [p]
    | some (pc, r) => pc :: specSplitF n r

/-- Specification-side splitter: cut at every boundary found by `findSplit`. -/
def specSplit (p : Str) : List Str := specSplitF (p.length + 1) p

/-- Specification-side recap rule for one line: split at the boundaries, trim
each fragment, drop empty fragments, keep the whole trimmed line when no
fragment survives. -/
def specSentences (p : Str) : List Str :=
  let parts := (specSplit p).filterMap fun f =>
    if trim f = [] then none else some (trim f)
  if parts = [] then [trim p] else parts

/-- A string with no internal split point: no whitespace character directly
preceded by sentence-terminal punctuation. -/
def noPair (l : Str) : Prop :=
  List.Chain' (fun a b => ¬(isSentEnd a = true ∧ isWS b = true)) l

/-- Python `line.split(":", 1)` when a colon is present: the part before the
first colon and the part after it. -/
def splitFirstColon : Str → Option (Str × Str)
  | [] => none
  | c :: rest =>
    if c = ':' then some ([], rest)
    else
      match splitFirstColon rest with
      | none => none
      | some (a, b) => some (c :: a, b)

/-- Python `x or d` on strings: `d` when `x` is empty. -/
def pyOr (x d : Str) : Str := if x = [] then d else x

/-- The literal placeholder "TBD". -/
def strTBD : Str := strL "TBD"

/-- The body of the `parse_action_items` loop for one line (lines 99-109):
`none` when the line is dropped, otherwise the emitted (owner, action) pair. -/
def parseActionLine (line : Str) : Option (Str × Str) :=
  let oa := match splitFirstColon line with
    | some (o, a) => (trim o, trim a)
    | none => ([], trim line)
  if oa.2 = [] then none else some (pyOr oa.1 strTBD, oa.2)

/-- `parse_action_items` (lines 97-110). -/
def parse_action_items : List Str → List (Str × Str)
  | [] => []
  | line :: rest =>
    match parseActionLine line with
    | none => parse_action_items rest
    | some r => r :: parse_action_items rest

/-- The action-item rule as the specification words it: if the line contains
a colon, split on the first colon only into a trimmed owner (before) and a
trimmed action (after); with no colon the owner is empty and the whole
trimmed line is the action; an owner empty after trimming becomes "TBD"; a
line whose action is empty after trimming yields no record. -/
def actionLineSpec (line : Str) : Option (Str × Str) :=
  if ':' ∈ line then
    let owner := trim (line.takeWhile fun c => c != ':')
    let action := trim ((line.dropWhile fun c => c != ':').drop 1)
    if action = [] then none
    else some ((if owner = [] then strTBD else owner), action)
  else
    let action := trim line
    if action = [] then none else some (strTBD, action)

/-- The title test `re.search` for sentence-terminal punctuation anchored at
the end of the line (line 121).  An unanchored Python dollar also matches
just before a final newline, so a line ending in a newline is tested on the
character before that newline. -/
def reSearchEndPunct (l : Str) : Bool :=
  match l.reverse with
  | [] => false
  | c :: rest =>
    if c = '\n' then
      match rest with
      | [] => false
      | c2 :: _ => isSentEnd c2
    else isSentEnd c

/-- Python truthiness of the optional title (`None` and the empty string are
both falsy). -/
def tTruthy : Option Str → Bool
  | none => false
  | some t => !t.isEmpty

/-- Python `current_title or "Summary"` on the optional title. -/
def tOr (t? : Option Str) (d : Str) : Str :=
  match t? with
  | none => d
  | some t => if t = [] then d else t

/-- The loop of `parse_summary_topics` (lines 113-144): skip falsy lines,
flush the pending topic when a title line arrives, otherwise accumulate
stripped body lines; flush once more at the end. -/
def pstAux (t? : Option Str) (body : List Str) : List Str → List (Str × Str)
  | [] =>
    if tTruthy t? || !body.isEmpty then
      [(tOr t? (strL "Summary"), trim (joinSep (strL " ") body))]
    else []
  | l :: rest =>
    if l.isEmpty then pstAux t? body rest
    else if reSearchEndPunct l then pstAux t? (body ++ [trim l]) rest
    else
      (if tTruthy t? || !body.isEmpty then
        [(tOr t? (strL "Summary"), trim (joinSep (strL " ") body))]
      else []) ++ pstAux (some (trim l)) [] rest

/-- `parse_summary_topics` of the script. -/
def parse_summary_topics (lines : List Str) : List (Str × Str) :=
  pstAux none [] lines

/-- Title classification as the specification words it: a line is a title
exactly when its last character is not sentence-terminal punctuation. -/
def lastIsPunct (l : Str) : Bool :=
  match l.getLast? with
  | some c => isSentEnd c
  | none => false

/-- One step of the summary-topic grouping as the specification words it:
body lines accumulate; a title line emits the pending record (title, body
joined by single spaces and trimmed) whenever a previous title or any body
exists, with the literal "Summary" standing in for a missing title. -/
def specTopicsStep (st : Option Str × List Str × List (Str × Str)) (line : Str) :
    Option Str × List Str × List (Str × Str) :=
  if lastIsPunct line then (st.1, st.2.1 ++ [line], st.2.2)
  else if st.1.isSome || !st.2.1.isEmpty then
    (some line, [],
      st.2.2 ++ [(st.1.getD (strL "Summary"), trim (joinSep (strL " ") st.2.1))])
  else (some line, [], st.2.2)

/-- Summary-topic grouping as the specification words it, with the final
pending record emitted after the last line. -/
def specTopics (lines : List Str) : List (Str × Str) :=
  let st := lines.foldl specTopicsStep (none, [], [])
  if st.1.isSome || !st.2.1.isEmpty then
    st.2.2 ++ [(st.1.getD (strL "Summary"), trim (joinSep (strL " ") st.2.1))]
  else st.2.2

/-- The `ParsedSummary` dataclass. -/
structure ParsedSummary where
  quick_recap : List Str
  action_items : List (Str × Str)
  summary_topics : List (Str × Str)
deriving DecidableEq

/-- `parse_summary` (lines 147-159). -/
def parse_summary (text : Str) : ParsedSummary :=
  let sections := split_sections (splitlines text)
  { quick_recap := parse_quick_recap (getSec sections qrKey)
    action_items := parse_action_items (getSec sections nsKey)
    summary_topics := parse_summary_topics (getSec sections smKey) }

/-- `format_agenda` (lines 162-165). -/
def format_agenda (topics : List (Str × Str)) : List Str :=
  match topics with
  | [] => [strL "- Updates from the supervisory team"]
  | _ => topics.map fun tb => strL "- " ++ tb.1

/-- `format_discussion_notes` (lines 168-181). -/
def format_discussion_notes (quick_recap : List Str) (topics : List (Str × Str)) :
    List Str :=
  let recapNotes :=
    match quick_recap with
    | [] => []
    | [s] => [strL "- Quick recap: " ++ s]
    | _ => [strL "- Quick recap: " ++ joinSep (strL "; ") quick_recap]
  let topicNotes := topics.map fun tb =>
    strL "- " ++ tb.1 ++ strL ": " ++
      (if tb.2 = [] then strL "Discussion captured in Zoom summary." else tb.2)
  let notes := recapNotes ++ topicNotes
  if notes = [] then [strL "- Discussion notes pending."] else notes

/-- `format_action_table` (lines 184-194). -/
def format_action_table (items : List (Str × Str)) : List Str :=
  let hdr := [strL "| Action | Owner | Due | Status |",
              strL "|--------|-------|-----|--------|"]
  match items with
  | [] => hdr ++ [strL "| No action items recorded | - | - | - |"]
  | _ => hdr ++ items.map fun oa =>
      strL "| " ++ oa.2 ++ strL " | " ++ oa.1 ++ strL " |  | Open |"

/-- The argparse namespace after parsing: every string flag holds its parsed
value (argparse already substituted the declared defaults; an explicitly
passed empty string stays empty), `follow_up` has no default and is `none`
when absent, `output` is the optional output path. -/
structure Args where
  date : Str
  time : Str
  connection : Str
  attendees : Str
  apologies : Str
  student : Str
  next_meeting : Str
  follow_up : Option Str
  output : Option Str
deriving DecidableEq

/-- The argparse defaults of lines 247-254. -/
def defaultArgs : Args :=
  { date := strL "YYYY-MM-DD", time := strTBD, connection := strTBD,
    attendees := [], apologies := [], student := [], next_meeting := strTBD,
    follow_up := none, output := none }

/-- The time/connection line of `build_markdown` (lines 198-204). -/
def timeConnection (time connection : Str) : Str :=
  let timeLabel := pyOr time strTBD
  let connLabel := pyOr connection strTBD
  if connLabel ≠ [] ∧ connLabel ≠ strTBD then
    timeLabel ++ strL " — " ++ connLabel
  else timeLabel

/-- The `parts` list assembled by `build_markdown` (lines 214-236). -/
def buildParts (parsed : ParsedSummary) (a : Args) : List Str :=
  let dateLabel := pyOr a.date (strL "YYYY-MM-DD")
  [strL "---",
   strL "## Meeting " ++ dateLabel,
   [],
   strL "- **Date:** " ++ dateLabel,
   strL "- **Time / connection:** " ++ timeConnection a.time a.connection,
   strL "- **Next meeting:** " ++ pyOr a.next_meeting strTBD,
   strL "- **Attendees:** " ++ pyOr a.attendees (pyOr a.student strTBD),
   strL "- **Apologies:** " ++ pyOr a.apologies (strL "None"),
   [],
   strL "### Agenda"] ++
  format_agenda parsed.summary_topics ++
  [[], strL "### Discussion notes"] ++
  format_discussion_notes parsed.quick_recap parsed.summary_topics ++
  [[], strL "### Action items"] ++
  format_action_table parsed.action_items ++
  [[], strL "### Follow-up",
   pyOr (a.follow_up.getD []) (strL "- Note any reminders or checks before the next meeting."),
   []]

/-- `build_markdown`: the parts joined with newlines. -/
def build_markdown (parsed : ParsedSummary) (a : Args) : Str :=
  joinSep (strL "\n") (buildParts parsed a)

/-- State of the input path: absent, present but not readable (for example a
permission failure or a directory), or readable with the given content. -/
inductive FileRead where
  | missing
  | unreadable
  | content (text : Str)
deriving DecidableEq

/-- How a run of the program terminates: normal output, a crafted
`SystemExit` message (descriptive user-facing error, exit code 1), or an
uncaught exception (traceback). -/
inductive Outcome where
  | success (md : Str)
  | exitError (msg : Str)
  | uncaughtExn (name : Str)
deriving DecidableEq

/-- `load_text` (lines 52-56): only `FileNotFoundError` is caught and turned
into the descriptive `SystemExit`; any other read failure (such as
`PermissionError` or `IsADirectoryError`) propagates uncaught. -/
def load_textM (src : FileRead) (path : Str) : Except Outcome Str :=
  match src with
  | .missing => .error (.exitError (strL "error: input file " ++ path ++ strL " not found"))
  | .unreadable => .error (.uncaughtExn (strL "PermissionError"))
  | .content t => .ok t

/-- `main` (lines 258-271) over the file-state model: read, parse, render,
then write to the output path (an `OSError` there is caught and becomes the
descriptive `SystemExit`) or succeed on standard output. -/
def mainModel (src : FileRead) (path : Str) (a : Args) (outWritable : Bool) : Outcome :=
  match load_textM src path with
  | .error o => o
  | .ok text =>
    let md := build_markdown (parse_summary text) a
    match a.output with
    | some _ =>
      if outWritable then .success md
      else .exitError (strL "error: failed to write output file")
    | none => .success md

/-- The run ended in the crafted descriptive `SystemExit` message. -/
def isExitError : Outcome → Bool
  | .exitError _ => true
  | _ => false

/-- The input path does not resolve to a readable file. -/
def inputNotReadable : FileRead → Bool
  | .missing => true
  | .unreadable => true
  | .content _ => false

/-- The input path does not exist at all. -/
def isMissingB : FileRead → Bool
  | .missing => true
  | _ => false

/-- The input path is a readable file. -/
def isContentB : FileRead → Bool
  | .content _ => true
  | _ => false

/-- An output file was requested and the destination cannot be written. -/
def writeFails (a : Args) (outWritable : Bool) : Bool :=
  a.output.isSome && !outWritable

/-! ### Helper lemmas -/

theorem splitFirstColon_eq_none (l : Str) : splitFirstColon l = none ↔ ':' ∉ l := by
  induction l with
  | nil => simp [splitFirstColon]
  | cons c rest ih =>
    by_cases hc : c = ':'
    · subst hc; simp [splitFirstColon]
    · cases h : splitFirstColon rest with
      | none =>
        have hr : ':' ∉ rest := ih.mp h
        simp only [splitFirstColon, if_neg hc, h, List.mem_cons, true_iff]
        push_neg
        exact ⟨fun hh => hc hh.symm, hr⟩
      | some pr =>
        have hr : ':' ∈ rest := by
          by_contra hn
          rw [ih.mpr hn] at h
          cases h
        simp [splitFirstColon, if_neg hc, h, hr]

theorem splitFirstColon_of_mem (l : Str) (h : ':' ∈ l) :
    splitFirstColon l =
      some (l.takeWhile (fun c => c != ':'), (l.dropWhile (fun c => c != ':')).drop 1) := by
  induction l with
  | nil => cases h
  | cons c rest ih =>
    by_cases hc : c = ':'
    · subst hc; simp [splitFirstColon, List.takeWhile_cons, List.dropWhile_cons]
    · have hm : ':' ∈ rest := by
        rcases List.mem_cons.mp h with h' | h'
        · exact absurd h'.symm hc
        · exact h'
      simp [splitFirstColon, hc, ih hm, List.takeWhile_cons, List.dropWhile_cons,
        Ne.symm hc]

/-! ### C1: action-item parsing -/

/-- C1: for every line of the next-steps bucket, a line with a colon is split
on the first colon only into a trimmed owner (before) and trimmed action
(after); a line with no colon gets an empty owner and the whole trimmed line
as action; an empty owner becomes the literal "TBD"; a line with empty action
yields no record; and the three concrete examples of the specification hold. -/
theorem c1_action_item_rule :
    (∀ line, parseActionLine line = actionLineSpec line) ∧
    (∀ lines, parse_action_items lines = lines.filterMap parseActionLine) ∧
    parse_action_items [strL "Alice: Send report"] = [(strL "Alice", strL "Send report")] ∧
    parse_action_items [strL "Just do it"] = [(strL "TBD", strL "Just do it")] ∧
    parse_action_items [strL "Alice:"] = [] := by
  refine ⟨?_, ?_, by decide, by decide, by decide⟩
  · intro line
    by_cases h : ':' ∈ line
    · rw [actionLineSpec]
      rw [if_pos h]
      simp [parseActionLine, splitFirstColon_of_mem line h, pyOr]
    · rw [actionLineSpec]
      rw [if_neg h]
      simp [parseActionLine, (splitFirstColon_eq_none line).mpr h, pyOr]
  · intro lines
    induction lines with
    | nil => rfl
    | cons l rest ih =>
      simp only [parse_action_items, List.filterMap_cons, ih]
      cases parseActionLine l <;> rfl

/-! ### C8: time/connection line -/

/-- C8: the rendered time/connection line is "time em-dash connection" when
the connection value is nonempty and differs from the sentinel "TBD", and is
the time label alone otherwise; the line sits at index 4 of the assembled
parts; with the default (omitted) connection the line is the time value
alone. -/
theorem c8_time_connection_rule :
    (∀ t c, c ≠ [] → c ≠ strTBD →
      timeConnection t c = pyOr t strTBD ++ strL " — " ++ c) ∧
    (∀ t c, c = [] ∨ c = strTBD → timeConnection t c = pyOr t strTBD) ∧
    (∀ parsed a, (buildParts parsed a).get? 4 =
      some (strL "- **Time / connection:** " ++ timeConnection a.time a.connection)) ∧
    timeConnection defaultArgs.time defaultArgs.connection = defaultArgs.time := by
  refine ⟨?_, ?_, ?_, by decide⟩
  · intro t c hne htbd
    have hp : pyOr c strTBD = c := by simp [pyOr, hne]
    simp [timeConnection, hp, hne, htbd]
  · intro t c h
    rcases h with h | h
    · subst h; simp [timeConnection, pyOr, strTBD]
    · subst h; simp [timeConnection, pyOr, strTBD, strL]
  · intro parsed a; rfl

/-! ### C5: error behaviour -/

/-- C5 fails as stated: an input path that exists but cannot be read (for
example a permission failure) terminates with an uncaught exception, not
with the descriptive user-facing error, although it does not resolve to a
readable file. -/
theorem c5_error_counterexample :
    ¬(isExitError (mainModel FileRead.unreadable (strL "summary.txt") defaultArgs true) = true ↔
      (inputNotReadable FileRead.unreadable = true ∨ writeFails defaultArgs true = true)) := by
  decide

/-- C5 amended: the descriptive user-facing error occurs exactly when the
input file is missing, or the input was read and the requested output cannot
be written; an existing unreadable input instead raises an uncaught
exception; every readable text is processed without error. -/
theorem c5_error_classification :
    (∀ src path a w, isExitError (mainModel src path a w) =
      (isMissingB src || (isContentB src && writeFails a w))) ∧
    (∀ path a w, mainModel FileRead.unreadable path a w =
      Outcome.uncaughtExn (strL "PermissionError")) ∧
    (∀ text path a, mainModel (FileRead.content text) path a true =
      Outcome.success (build_markdown (parse_summary text) a)) ∧
    (∀ text path a w, a.output = none → mainModel (FileRead.content text) path a w =
      Outcome.success (build_markdown (parse_summary text) a)) := by
  refine ⟨?_, ?_, ?_, ?_⟩
  · intro src path a w
    cases src <;> cases h : a.output <;> cases w <;>
      simp [mainModel, load_textM, isExitError, isMissingB, isContentB, writeFails, h]
  · intro path a w; rfl
  · intro text path a
    cases h : a.output <;> simp [mainModel, load_textM, h]
  · intro text path a w h
    simp [mainModel, load_textM, h]

/-- Witness for the amended C5 classification at concrete inputs. -/
theorem c5_error_classification_witness :
    (defaultArgs.output = none) ∧
    mainModel (FileRead.content (strL "hello")) (strL "p.txt") defaultArgs false =
      Outcome.success (build_markdown (parse_summary (strL "hello")) defaultArgs) :=
  ⟨rfl, c5_error_classification.2.2.2 _ _ _ _ rfl⟩

/-- Witness for the C8 rule at concrete inputs. -/
theorem c8_time_connection_rule_witness :
    (strL "Zoom link" ≠ ([] : Str)) ∧ (strL "Zoom link" ≠ strTBD) ∧
    timeConnection (strL "14:00 SAST") (strL "Zoom link") =
      pyOr (strL "14:00 SAST") strTBD ++ strL " — " ++ strL "Zoom link" :=
  ⟨by decide, by decide, c8_time_connection_rule.1 _ _ (by decide) (by decide)⟩

/-! ### C4 and C9: the section splitter -/

theorem appendAt_map_fst (k : Str) (v : Str) (secs : List (Str × List Str)) :
    (appendAt k v secs).map Prod.fst = secs.map Prod.fst := by
  induction secs with
  | nil => rfl
  | cons kv rest ih =>
    obtain ⟨k', vs⟩ := kv
    by_cases h : k' = k <;> simp [appendAt, h, ih]

theorem splitSectionsAux_map_fst (lines : List Str) :
    ∀ secs cur, (splitSectionsAux secs cur lines).map Prod.fst = secs.map Prod.fst := by
  induction lines with
  | nil => intro secs cur; rfl
  | cons raw rest ih =>
    intro secs cur
    by_cases hb : trim raw = []
    · simp [splitSectionsAux, hb, ih]
    · cases hk : sectionKeyOf (trim raw) with
      | some k => simp [splitSectionsAux, hb, hk, ih]
      | none =>
        cases cur with
        | none => simp [splitSectionsAux, hb, hk, ih]
        | some k => simp [splitSectionsAux, hb, hk, ih, appendAt_map_fst]

theorem appendAt_all {P : Str → Prop} (k : Str) (v : Str)
    (secs : List (Str × List Str)) (hs : ∀ kv ∈ secs, ∀ l ∈ kv.2, P l) (hv : P v) :
    ∀ kv ∈ appendAt k v secs, ∀ l ∈ kv.2, P l := by
  induction secs with
  | nil => intro kv h; cases h
  | cons kv0 rest ih =>
    obtain ⟨k', vs⟩ := kv0
    by_cases h : k' = k
    · subst h
      simp only [appendAt, if_pos rfl]
      intro kv hkv l hl
      rcases List.mem_cons.mp hkv with rfl | hkv
      · rcases List.mem_append.mp hl with hl | hl
        · exact hs _ (List.mem_cons_self _ _) _ hl
        · rcases List.mem_singleton.mp hl with rfl
          exact hv
      · exact hs _ (List.mem_cons_of_mem _ hkv) _ hl
    · simp only [appendAt, if_neg h]
      intro kv hkv l hl
      rcases List.mem_cons.mp hkv with rfl | hkv
      · exact hs _ (List.mem_cons_self _ _) _ hl
      · exact ih (fun kv' h' => hs _ (List.mem_cons_of_mem _ h')) _ hkv _ hl

theorem dropWhile_idem (p : Char → Bool) (l : Str) :
    List.dropWhile p (List.dropWhile p l) = List.dropWhile p l := by
  cases h : List.dropWhile p l with
  | nil => rfl
  | cons c t =>
    have hc : p c = false := by
      have hhead := List.head?_dropWhile_not p l
      rw [h] at hhead
      simpa using hhead
    simp [List.dropWhile_cons, hc]

theorem trim_getLast?_not (l : Str) : ∀ c, (trim l).getLast? = some c → isWS c = false := by
  intro c hc
  unfold trim at hc
  rw [List.getLast?_reverse] at hc
  have hhead := List.head?_dropWhile_not isWS (l.dropWhile isWS).reverse
  rw [hc] at hhead
  simpa using hhead

theorem trim_head?_not (l : Str) : ∀ c, (trim l).head? = some c → isWS c = false := by
  intro c hc
  unfold trim at hc
  rw [List.head?_reverse] at hc
  have hsplit : (l.dropWhile isWS).reverse.takeWhile isWS ++
      (l.dropWhile isWS).reverse.dropWhile isWS = (l.dropWhile isWS).reverse :=
    List.takeWhile_append_dropWhile isWS (l.dropWhile isWS).reverse
  have h2 : (l.dropWhile isWS).reverse.getLast? = some c := by
    rw [← hsplit, List.getLast?_append, hc]
    rfl
  rw [List.getLast?_reverse] at h2
  have hhead := List.head?_dropWhile_not isWS l
  rw [h2] at hhead
  simpa using hhead

theorem trim_eq_self (x : Str) (h1 : ∀ c, x.head? = some c → isWS c = false)
    (h2 : ∀ c, x.getLast? = some c → isWS c = false) : trim x = x := by
  have hd : x.dropWhile isWS = x := by
    cases x with
    | nil => rfl
    | cons c t => simp [List.dropWhile_cons, h1 c rfl]
  have hd2 : x.reverse.dropWhile isWS = x.reverse := by
    cases hx : x.reverse with
    | nil => simp
    | cons c t =>
      have hlast : x.getLast? = some c := by
        rw [← List.head?_reverse, hx]; rfl
      simp [List.dropWhile_cons, h2 c hlast]
  unfold trim
  rw [hd, hd2, List.reverse_reverse]

theorem trim_trim (l : Str) : trim (trim l) = trim l :=
  trim_eq_self (trim l) (trim_head?_not l) (trim_getLast?_not l)

theorem all_ws_of_dropWhile_nil {l : Str} (h : ∀ x ∈ l.dropWhile isWS, isWS x = true) :
    l.dropWhile isWS = [] := by
  cases hd : l.dropWhile isWS with
  | nil => rfl
  | cons c t =>
    have hc : isWS c = false := by
      have hhead := List.head?_dropWhile_not isWS l
      rw [hd] at hhead
      simpa using hhead
    have : isWS c = true := h c (by rw [hd]; exact List.mem_cons_self _ _)
    rw [hc] at this
    cases this

theorem trim_eq_nil_iff (l : Str) : trim l = [] ↔ ∀ c ∈ l, isWS c = true := by
  unfold trim
  rw [List.reverse_eq_nil_iff, List.dropWhile_eq_nil_iff]
  constructor
  · intro h c hc
    have h' : ∀ x ∈ l.dropWhile isWS, isWS x = true := by
      intro x hx
      exact h x (List.mem_reverse.mpr hx)
    have hnil : l.dropWhile isWS = [] := all_ws_of_dropWhile_nil h'
    rw [List.dropWhile_eq_nil_iff] at hnil
    exact hnil c hc
  · intro h c hc
    have hc' : c ∈ l.dropWhile isWS := List.mem_reverse.mp hc
    have : l.dropWhile isWS = [] := by
      rw [List.dropWhile_eq_nil_iff]; exact h
    rw [this] at hc'
    cases hc'

theorem splitStep_blank (secs : List (Str × List Str)) (cur : Option Str)
    (raw : Str) (rest : List Str) (h : trim raw = []) :
    splitSectionsAux secs cur (raw :: rest) = splitSectionsAux secs cur rest := by
  simp [splitSectionsAux, h]

theorem splitStep_header (secs : List (Str × List Str)) (cur : Option Str)
    (raw : Str) (rest : List Str) (k : Str) (h : sectionKeyOf (trim raw) = some k) :
    splitSectionsAux secs cur (raw :: rest) = splitSectionsAux secs (some k) rest := by
  have hne : trim raw ≠ [] := by
    intro h0
    rw [h0] at h
    cases h
  simp [splitSectionsAux, hne, h]

theorem splitStep_drop (secs : List (Str × List Str)) (raw : Str) (rest : List Str)
    (h : sectionKeyOf (trim raw) = none) :
    splitSectionsAux secs none (raw :: rest) = splitSectionsAux secs none rest := by
  by_cases h1 : trim raw = [] <;> simp [splitSectionsAux, h1, h]

theorem splitStep_content (secs : List (Str × List Str)) (k : Str)
    (raw : Str) (rest : List Str) (h1 : trim raw ≠ [])
    (h2 : sectionKeyOf (trim raw) = none) :
    splitSectionsAux secs (some k) (raw :: rest) =
      splitSectionsAux (appendAt k (trim raw) secs) (some k) rest := by
  simp [splitSectionsAux, h1, h2]

theorem splitSections_discard_prefix (pre post : List Str) (secs : List (Str × List Str))
    (h : ∀ l ∈ pre, sectionKeyOf (trim l) = none) :
    splitSectionsAux secs none (pre ++ post) = splitSectionsAux secs none post := by
  induction pre with
  | nil => rfl
  | cons raw rest ih =>
    rw [List.cons_append, splitStep_drop _ _ _ (h raw (List.mem_cons_self _ _))]
    exact ih fun l hl => h l (List.mem_cons_of_mem _ hl)

theorem split_sections_foldl (lines : List Str) :
    ∀ secs cur, splitSectionsAux secs cur lines = (lines.foldl splitStepSpec (secs, cur)).1 := by
  induction lines with
  | nil => intro secs cur; rfl
  | cons raw rest ih =>
    intro secs cur
    rw [List.foldl_cons]
    by_cases hb : trim raw = []
    · rw [splitStep_blank _ _ _ _ hb]
      have hstep : splitStepSpec (secs, cur) raw = (secs, cur) := by
        simp [splitStepSpec, hb]
      rw [hstep]
      exact ih secs cur
    · cases hk : sectionKeyOf (trim raw) with
      | some k =>
        rw [splitStep_header _ _ _ _ _ hk]
        have hstep : splitStepSpec (secs, cur) raw = (secs, some k) := by
          simp [splitStepSpec, hb, hk]
        rw [hstep]
        exact ih secs (some k)
      | none =>
        cases cur with
        | none =>
          rw [splitStep_drop _ _ _ hk]
          have hstep : splitStepSpec (secs, none) raw = (secs, none) := by
            simp [splitStepSpec, hb, hk]
          rw [hstep]
          exact ih secs none
        | some k =>
          rw [splitStep_content _ _ _ _ hb hk]
          have hstep : splitStepSpec (secs, some k) raw = (appendAt k (trim raw) secs, some k) := by
            simp [splitStepSpec, hb, hk]
          rw [hstep]
          exact ih (appendAt k (trim raw) secs) (some k)

/-! ### C4: section-splitter behaviour -/

/-- C4: the splitter is the left fold of the specification step: blank lines
are skipped; a recognised header line switches the section pointer without
being stored; non-header lines seen while no section is active (in
particular before the first header) are silently discarded; any other line
is appended, trimmed, to the bucket of the most recently seen header. -/
theorem c4_section_splitter_rule :
    (∀ lines, split_sections lines = (lines.foldl splitStepSpec (initSections, none)).1) ∧
    (∀ secs cur raw rest, trim raw = [] →
      splitSectionsAux secs cur (raw :: rest) = splitSectionsAux secs cur rest) ∧
    (∀ secs cur raw rest k, sectionKeyOf (trim raw) = some k →
      splitSectionsAux secs cur (raw :: rest) = splitSectionsAux secs (some k) rest) ∧
    (∀ pre post secs, (∀ l ∈ pre, sectionKeyOf (trim l) = none) →
      splitSectionsAux secs none (pre ++ post) = splitSectionsAux secs none post) ∧
    (∀ secs k raw rest, trim raw ≠ [] → sectionKeyOf (trim raw) = none →
      splitSectionsAux secs (some k) (raw :: rest) =
        splitSectionsAux (appendAt k (trim raw) secs) (some k) rest) := by
  refine ⟨?_, splitStep_blank, splitStep_header, splitSections_discard_prefix, ?_⟩
  · intro lines
    rw [split_sections]
    exact split_sections_foldl lines initSections none
  · intro secs k raw rest h1 h2
    exact splitStep_content secs k raw rest h1 h2

/-- Witness for C4 at concrete inputs: a blank line is skipped, a header
switches without being stored, a stray prefix is discarded, and a content
line is appended trimmed. -/
theorem c4_section_splitter_rule_witness :
    (trim (strL "  ") = [] ∧
      splitSectionsAux initSections none [strL "  ", strL "x."] =
        splitSectionsAux initSections none [strL "x."]) ∧
    (sectionKeyOf (trim (strL "Next Steps")) = some nsKey ∧
      splitSectionsAux initSections none [strL "Next Steps"] =
        splitSectionsAux initSections (some nsKey) []) ∧
    ((∀ l ∈ [strL "stray line"], sectionKeyOf (trim l) = none) ∧
      splitSectionsAux initSections none ([strL "stray line"] ++ [strL "Recap"]) =
        splitSectionsAux initSections none [strL "Recap"]) ∧
    (trim (strL " Hello. ") ≠ [] ∧ sectionKeyOf (trim (strL " Hello. ")) = none ∧
      splitSectionsAux initSections (some qrKey) [strL " Hello. "] =
        splitSectionsAux (appendAt qrKey (trim (strL " Hello. ")) initSections) (some qrKey) []) := by
  refine ⟨⟨by decide, c4_section_splitter_rule.2.1 _ _ _ _ (by decide)⟩,
    ⟨by decide, c4_section_splitter_rule.2.2.1 _ _ _ _ _ (by decide)⟩,
    ⟨by decide, c4_section_splitter_rule.2.2.2.1 _ _ _ (by decide)⟩,
    ⟨by decide, by decide, c4_section_splitter_rule.2.2.2.2 _ _ _ _ (by decide) (by decide)⟩⟩

/-! ### C9: bucket key set and line shape -/

/-- C9: for every input, the splitter returns an association list whose key
sequence is exactly the three canonical keys, and every stored line is
trimmed and non-empty (the keys are present even for empty input). -/
theorem c9_bucket_shape (lines : List Str) :
    (split_sections lines).map Prod.fst = [qrKey, nsKey, smKey] ∧
    ∀ kv ∈ split_sections lines, ∀ l ∈ kv.2, trim l = l ∧ l ≠ [] := by
  constructor
  · rw [split_sections, splitSectionsAux_map_fst]
    rfl
  · rw [split_sections]
    have main : ∀ ls (secs : List (Str × List Str)) cur,
        (∀ kv ∈ secs, ∀ l ∈ kv.2, trim l = l ∧ l ≠ []) →
        ∀ kv ∈ splitSectionsAux secs cur ls, ∀ l ∈ kv.2, trim l = l ∧ l ≠ [] := by
      intro ls
      induction ls with
      | nil => intro secs cur hs; exact hs
      | cons raw rest ih =>
        intro secs cur hs
        by_cases hb : trim raw = []
        · rw [splitStep_blank _ _ _ _ hb]
          exact ih secs cur hs
        · cases hk : sectionKeyOf (trim raw) with
          | some k =>
            rw [splitStep_header _ _ _ _ _ hk]
            exact ih secs (some k) hs
          | none =>
            cases cur with
            | none =>
              rw [splitStep_drop _ _ _ hk]
              exact ih secs none hs
            | some k =>
              rw [splitStep_content _ _ _ _ hb hk]
              exact ih _ _ (appendAt_all k (trim raw) secs hs ⟨trim_trim raw, hb⟩)
    refine main lines initSections none ?_
    intro kv hkv l hl
    simp only [initSections, List.mem_cons, List.not_mem_nil, or_false] at hkv
    rcases hkv with rfl | rfl | rfl <;> simp at hl

/-- Witness for C9 at a concrete input. -/
theorem c9_bucket_shape_witness :
    ((qrKey, [strL "Hello."]) ∈ split_sections [strL "Recap", strL " Hello. "]) ∧
    (strL "Hello." ∈ [strL "Hello."]) ∧
    (trim (strL "Hello.") = strL "Hello." ∧ strL "Hello." ≠ []) :=
  ⟨by decide, by decide,
    (c9_bucket_shape [strL "Recap", strL " Hello. "]).2 (qrKey, [strL "Hello."])
      (by decide) (strL "Hello.") (by decide)⟩

/-! ### C6: no recognised header -/

/-- C6: when no line of the input is recognised as a section header, all
three buckets stay empty and the three rendered blocks consist exactly of
their fixed fallback content (one agenda bullet, one pending-notes bullet,
one fallback table row). -/
theorem c6_no_header_fallback (text : Str)
    (h : ∀ l ∈ splitlines text, sectionKeyOf (trim l) = none) :
    split_sections (splitlines text) = initSections ∧
    parse_summary text = ⟨[], [], []⟩ ∧
    format_agenda (parse_summary text).summary_topics =
      [strL "- Updates from the supervisory team"] ∧
    format_discussion_notes (parse_summary text).quick_recap
        (parse_summary text).summary_topics =
      [strL "- Discussion notes pending."] ∧
    format_action_table (parse_summary text).action_items =
      [strL "| Action | Owner | Due | Status |",
       strL "|--------|-------|-----|--------|",
       strL "| No action items recorded | - | - | - |"] := by
  have hsecs : split_sections (splitlines text) = initSections := by
    rw [split_sections]
    have hd := splitSections_discard_prefix (splitlines text) [] initSections h
    simpa using hd
  have hparse : parse_summary text = ⟨[], [], []⟩ := by
    unfold parse_summary
    rw [hsecs]
    decide
  refine ⟨hsecs, hparse, ?_, ?_, ?_⟩ <;> rw [hparse] <;> decide

/-- Witness for C6 at a concrete header-free input. -/
theorem c6_no_header_fallback_witness :
    (∀ l ∈ splitlines (strL "Hello there.\nNothing to see"),
      sectionKeyOf (trim l) = none) ∧
    parse_summary (strL "Hello there.\nNothing to see") = ⟨[], [], []⟩ :=
  ⟨by decide, (c6_no_header_fallback _ (by decide)).2.1⟩

theorem reSearchEnd_eq_lastIsPunct (l : Str) (hne : l ≠ []) (ht : trim l = l) :
    reSearchEndPunct l = lastIsPunct l := by
  cases hr : l.reverse with
  | nil =>
    rw [List.reverse_eq_nil_iff] at hr
    exact absurd hr hne
  | cons c rest =>
    have hlast : l.getLast? = some c := by
      rw [← List.head?_reverse, hr]; rfl
    have hcw : isWS c = false := by
      have hn := trim_getLast?_not l
      rw [ht] at hn
      exact hn c hlast
    have hcn : c ≠ '\n' := by
      intro h0
      rw [h0] at hcw
      have : isWS '\n' = true := by decide
      rw [this] at hcw
      cases hcw
    unfold reSearchEndPunct lastIsPunct
    rw [hr, hlast]
    simp [hcn]

theorem tTruthy_eq_isSome (t : Option Str) (hinv : ∀ s, t = some s → s ≠ []) :
    tTruthy t = t.isSome := by
  cases t with
  | none => rfl
  | some s =>
    have hs := hinv s rfl
    simp [tTruthy, hs]

theorem tOr_eq_getD (t : Option Str) (d : Str) (hinv : ∀ s, t = some s → s ≠ []) :
    tOr t d = t.getD d := by
  cases t with
  | none => rfl
  | some s =>
    have hs := hinv s rfl
    simp [tOr, hs]

theorem specTopicsStep_acc (t : Option Str) (b : List Str) (acc : List (Str × Str)) (l : Str) :
    specTopicsStep (t, b, acc) l =
      ((specTopicsStep (t, b, []) l).1, (specTopicsStep (t, b, []) l).2.1,
        acc ++ (specTopicsStep (t, b, []) l).2.2) := by
  unfold specTopicsStep
  by_cases hp : lastIsPunct l = true
  · simp [hp]
  · by_cases hc : (t.isSome || !b.isEmpty) = true <;> simp [hp, hc]

theorem foldl_specTopicsStep_acc (lines : List Str) :
    ∀ t b acc, lines.foldl specTopicsStep (t, b, acc) =
      ((lines.foldl specTopicsStep (t, b, [])).1,
        (lines.foldl specTopicsStep (t, b, [])).2.1,
        acc ++ (lines.foldl specTopicsStep (t, b, [])).2.2) := by
  induction lines with
  | nil => intro t b acc; simp
  | cons l rest ih =>
    intro t b acc
    rw [List.foldl_cons, List.foldl_cons, specTopicsStep_acc]
    rw [ih (specTopicsStep (t, b, []) l).1 (specTopicsStep (t, b, []) l).2.1
      (acc ++ (specTopicsStep (t, b, []) l).2.2)]
    rw [ih (specTopicsStep (t, b, []) l).1 (specTopicsStep (t, b, []) l).2.1
      (specTopicsStep (t, b, []) l).2.2]
    simp [List.append_assoc]

theorem pstAux_eq_spec (lines : List Str) :
    ∀ t b, (∀ l ∈ lines, l ≠ [] ∧ trim l = l) → (∀ s, t = some s → s ≠ []) →
      pstAux t b lines =
        (lines.foldl specTopicsStep (t, b, [])).2.2 ++
        (if (lines.foldl specTopicsStep (t, b, [])).1.isSome ||
            !(lines.foldl specTopicsStep (t, b, [])).2.1.isEmpty then
          [((lines.foldl specTopicsStep (t, b, [])).1.getD (strL "Summary"),
            trim (joinSep (strL " ") (lines.foldl specTopicsStep (t, b, [])).2.1))]
        else []) := by
  induction lines with
  | nil =>
    intro t b _ hinv
    rw [List.foldl_nil]
    rw [pstAux, tTruthy_eq_isSome t hinv, tOr_eq_getD t (strL "Summary") hinv]
    simp
  | cons l rest ih =>
    intro t b hl hinv
    obtain ⟨hne, htr⟩ := hl l (List.mem_cons_self _ _)
    have hltail : ∀ l' ∈ rest, l' ≠ [] ∧ trim l' = l' :=
      fun l' h' => hl l' (List.mem_cons_of_mem _ h')
    have hle : l.isEmpty = false := by simpa using hne
    have hrs : reSearchEndPunct l = lastIsPunct l := reSearchEnd_eq_lastIsPunct l hne htr
    rw [List.foldl_cons]
    by_cases hp : lastIsPunct l = true
    · have hstep : specTopicsStep (t, b, []) l = (t, b ++ [l], []) := by
        simp [specTopicsStep, hp]
      rw [hstep]
      have hL : pstAux t b (l :: rest) = pstAux t (b ++ [l]) rest := by
        rw [pstAux, hle, hrs, hp, htr]
        simp
      rw [hL]
      exact ih t (b ++ [l]) hltail hinv
    · have hpf : lastIsPunct l = false := by simpa using hp
      have hinv' : ∀ s, (some l : Option Str) = some s → s ≠ [] := by
        intro s hs
        injection hs with hs'
        rw [← hs']
        exact hne
      by_cases hc : (t.isSome || !b.isEmpty) = true
      · have hstep : specTopicsStep (t, b, []) l =
            (some l, [],
              [(t.getD (strL "Summary"), trim (joinSep (strL " ") b))]) := by
          simp [specTopicsStep, hpf, hc]
        rw [hstep]
        have hL : pstAux t b (l :: rest) =
            (t.getD (strL "Summary"), trim (joinSep (strL " ") b)) ::
              pstAux (some l) [] rest := by
          rw [pstAux, hle, hrs, hpf, htr,
            tTruthy_eq_isSome t hinv, tOr_eq_getD t (strL "Summary") hinv]
          simp [hc]
        rw [hL, ih (some l) [] hltail hinv']
        rw [foldl_specTopicsStep_acc rest (some l) []
          [(t.getD (strL "Summary"), trim (joinSep (strL " ") b))]]
        simp
      · have hcf : (t.isSome || !b.isEmpty) = false := by simpa using hc
        have hstep : specTopicsStep (t, b, []) l = (some l, [], []) := by
          simp [specTopicsStep, hpf, hcf]
        rw [hstep]
        have hL : pstAux t b (l :: rest) = pstAux (some l) [] rest := by
          rw [pstAux, hle, hrs, hpf, htr,
            tTruthy_eq_isSome t hinv, tOr_eq_getD t (strL "Summary") hinv]
          simp [hcf]
        rw [hL]
        exact ih (some l) [] hltail hinv'

/-! ### C2: summary-topic grouping -/

/-- C2: on the (trimmed, non-empty) lines of the summary bucket the topic
parser behaves exactly as the specification words it: a line is a title iff
its last character is not sentence-terminal punctuation, a record is emitted
whenever a new title arrives while a previous title or body exists (body
joined by single spaces and trimmed), one final pending record is emitted
after the last line, and the literal "Summary" stands in for a missing
title; the concrete budget/risks example yields exactly its two records. -/
theorem c2_summary_topics_rule :
    (∀ lines, (∀ l ∈ lines, l ≠ [] ∧ trim l = l) →
      parse_summary_topics lines = specTopics lines) ∧
    parse_summary_topics
      [strL "Budget", strL "Discussed funding.", strL "Discussed timeline.",
       strL "Risks", strL "None noted."] =
      [(strL "Budget", strL "Discussed funding. Discussed timeline."),
       (strL "Risks", strL "None noted.")] := by
  constructor
  · intro lines h
    rw [parse_summary_topics,
      pstAux_eq_spec lines none [] h (by intro s hs; cases hs)]
    simp only [specTopics]
    by_cases hc : ((lines.foldl specTopicsStep (none, [], [])).1.isSome ||
        !(lines.foldl specTopicsStep (none, [], [])).2.1.isEmpty) = true
    · simp [hc]
    · simp [hc]
  · decide

/-- Witness for the C2 equivalence at a concrete bucket. -/
theorem c2_summary_topics_rule_witness :
    (∀ l ∈ [strL "Budget", strL "Risks"], l ≠ [] ∧ trim l = l) ∧
    parse_summary_topics [strL "Budget", strL "Risks"] =
      specTopics [strL "Budget", strL "Risks"] :=
  ⟨by decide, c2_summary_topics_rule.1 _ (by decide)⟩

theorem length_dropWhile_le (p : Char → Bool) (l : Str) :
    (l.dropWhile p).length ≤ l.length :=
  (List.dropWhile_sublist p).length_le

theorem findSplit_none_iff : ∀ p : Str, findSplit p = none ↔ noPair p
  | [] => by simp [findSplit, noPair]
  | [a] => by simp [findSplit, noPair]
  | a :: b :: rest => by
    have ih := findSplit_none_iff (b :: rest)
    unfold noPair at ih ⊢
    rw [List.chain'_cons]
    by_cases h : (isSentEnd a && isWS b) = true
    · rw [Bool.and_eq_true] at h
      apply iff_of_false
      · rw [findSplit, if_pos (by rw [Bool.and_eq_true]; exact ⟨h.1, h.2⟩)]
        intro hcon
        cases hcon
      · intro hnp
        exact hnp.1 ⟨h.1, h.2⟩
    · have hR : ¬(isSentEnd a = true ∧ isWS b = true) := by
        rw [← Bool.and_eq_true]
        simp [h]
      rw [findSplit, if_neg h]
      constructor
      · intro hm
        cases hfs : findSplit (b :: rest) with
        | none => exact ⟨hR, ih.mp hfs⟩
        | some pr =>
          rw [hfs] at hm
          cases hm
      · intro hnp
        rw [ih.mpr hnp.2]
        rfl

theorem findSplit_shrinks : ∀ p pc r : Str, findSplit p = some (pc, r) → r.length < p.length
  | [], pc, r => by intro h; cases h
  | [a], pc, r => by intro h; cases h
  | a :: b :: rest, pc, r => by
    intro h
    by_cases hc : (isSentEnd a && isWS b) = true
    · rw [findSplit, if_pos hc] at h
      have h2 : rest.dropWhile isWS = r := congrArg Prod.snd (Option.some.inj h)
      rw [← h2]
      have hle : (rest.dropWhile isWS).length ≤ rest.length := length_dropWhile_le isWS rest
      calc (rest.dropWhile isWS).length ≤ rest.length := hle
        _ < (a :: b :: rest).length := by
          simp only [List.length_cons]
          omega
    · rw [findSplit, if_neg hc] at h
      cases hfs : findSplit (b :: rest) with
      | none =>
        rw [hfs] at h
        cases h
      | some pr =>
        obtain ⟨pc', r'⟩ := pr
        rw [hfs] at h
        rw [Option.map_some'] at h
        have h2 : r' = r := congrArg Prod.snd (Option.some.inj h)
        have ih := findSplit_shrinks (b :: rest) pc' r' hfs
        rw [← h2]
        exact Nat.lt_succ_of_lt ih

theorem specSplitF_congr : ∀ n m : Nat, ∀ p : Str, p.length < n → p.length < m →
    specSplitF n p = specSplitF m p := by
  intro n
  induction n with
  | zero => intro m p h; cases h
  | succ n ih =>
    intro m p hn hm
    cases m with
    | zero => cases hm
    | succ m =>
      rw [specSplitF, specSplitF]
      cases hfs : findSplit p with
      | none => rfl
      | some pr =>
        obtain ⟨pc, r⟩ := pr
        have hlt := findSplit_shrinks p pc r hfs
        have h1 : r.length < n := Nat.lt_of_lt_of_le hlt (Nat.lt_succ_iff.mp hn)
        have h2 : r.length < m := Nat.lt_of_lt_of_le hlt (Nat.lt_succ_iff.mp hm)
        simp [ih m r h1 h2]

theorem specSplit_eq (p : Str) :
    specSplit p =
      (match findSplit p with
       | none => [p]
       | some pr => pr.1 :: specSplit pr.2) := by
  rw [specSplit, specSplitF]
  cases hfs : findSplit p with
  | none => rfl
  | some pr =>
    obtain ⟨pc, r⟩ := pr
    have hlt := findSplit_shrinks p pc r hfs
    simp only [specSplit]
    rw [specSplitF_congr p.length (r.length + 1) r hlt (Nat.lt_succ_self _)]

theorem findSplit_head : ∀ p pc r : Str, findSplit p = some (pc, r) → pc.head? = p.head?
  | [], pc, r => by intro h; cases h
  | [a], pc, r => by intro h; cases h
  | a :: b :: rest, pc, r => by
    intro h
    by_cases hc : (isSentEnd a && isWS b) = true
    · rw [findSplit, if_pos hc] at h
      have h1 : ([a] : Str) = pc := congrArg Prod.fst (Option.some.inj h)
      rw [← h1]
      rfl
    · rw [findSplit, if_neg hc] at h
      cases hfs : findSplit (b :: rest) with
      | none =>
        rw [hfs] at h
        cases h
      | some pr =>
        obtain ⟨pc', r'⟩ := pr
        rw [hfs, Option.map_some'] at h
        have h1 : a :: pc' = pc := congrArg Prod.fst (Option.some.inj h)
        rw [← h1]
        rfl

theorem findSplit_noPair_piece : ∀ p pc r : Str, findSplit p = some (pc, r) → noPair pc
  | [], pc, r => by intro h; cases h
  | [a], pc, r => by intro h; cases h
  | a :: b :: rest, pc, r => by
    intro h
    by_cases hc : (isSentEnd a && isWS b) = true
    · rw [findSplit, if_pos hc] at h
      have h1 : ([a] : Str) = pc := congrArg Prod.fst (Option.some.inj h)
      rw [← h1]
      exact List.chain'_singleton a
    · rw [findSplit, if_neg hc] at h
      cases hfs : findSplit (b :: rest) with
      | none =>
        rw [hfs] at h
        cases h
      | some pr =>
        obtain ⟨pc', r'⟩ := pr
        rw [hfs, Option.map_some'] at h
        have h1 : a :: pc' = pc := congrArg Prod.fst (Option.some.inj h)
        have ihnp := findSplit_noPair_piece (b :: rest) pc' r' hfs
        have hhead : pc'.head? = some b := findSplit_head (b :: rest) pc' r' hfs
        rw [← h1]
        unfold noPair at ihnp ⊢
        rw [List.chain'_cons']
        refine ⟨?_, ihnp⟩
        intro y hy
        rw [hhead] at hy
        have hyb : y = b := by
          cases hy
          rfl
        rw [hyb]
        intro ⟨h1', h2'⟩
        rw [Bool.and_eq_true] at hc
        exact hc ⟨h1', h2'⟩

theorem findSplit_decomp : ∀ p pc r : Str, findSplit p = some (pc, r) →
    ∃ sep : Str, (∀ c ∈ sep, isWS c = true) ∧ p = pc ++ sep ++ r
  | [], pc, r => by intro h; cases h
  | [a], pc, r => by intro h; cases h
  | a :: b :: rest, pc, r => by
    intro h
    by_cases hc : (isSentEnd a && isWS b) = true
    · rw [findSplit, if_pos hc] at h
      have h1 : ([a] : Str) = pc := congrArg Prod.fst (Option.some.inj h)
      have h2 : rest.dropWhile isWS = r := congrArg Prod.snd (Option.some.inj h)
      refine ⟨b :: rest.takeWhile isWS, ?_, ?_⟩
      · intro c hcm
        rcases List.mem_cons.mp hcm with rfl | hcm
        · exact (Bool.and_eq_true _ _).mp hc |>.2
        · exact List.mem_takeWhile_imp hcm
      · rw [← h1, ← h2]
        simp only [List.cons_append, List.nil_append]
        rw [List.takeWhile_append_dropWhile]
    · rw [findSplit, if_neg hc] at h
      cases hfs : findSplit (b :: rest) with
      | none =>
        rw [hfs] at h
        cases h
      | some pr =>
        obtain ⟨pc', r'⟩ := pr
        rw [hfs, Option.map_some'] at h
        have h1 : a :: pc' = pc := congrArg Prod.fst (Option.some.inj h)
        have h2 : r' = r := congrArg Prod.snd (Option.some.inj h)
        obtain ⟨sep, hsep, hdec⟩ := findSplit_decomp (b :: rest) pc' r' hfs
        refine ⟨sep, hsep, ?_⟩
        rw [← h1, ← h2]
        simp only [List.cons_append]
        rw [← hdec]

theorem specSplit_of_noPair (p : Str) (h : noPair p) : specSplit p = [p] := by
  rw [specSplit_eq, (findSplit_none_iff p).mpr h]

theorem noPair_specSplit : ∀ n : Nat, ∀ p : Str, p.length < n →
    ∀ f ∈ specSplit p, noPair f := by
  intro n
  induction n with
  | zero => intro p h; cases h
  | succ n ih =>
    intro p hp f hf
    rw [specSplit_eq] at hf
    cases hfs : findSplit p with
    | none =>
      rw [hfs] at hf
      have : f = p := by
        cases List.mem_singleton.mp hf
        rfl
      rw [this]
      exact (findSplit_none_iff p).mp hfs
    | some pr =>
      obtain ⟨pc, r⟩ := pr
      rw [hfs] at hf
      rcases List.mem_cons.mp hf with rfl | hf
      · exact findSplit_noPair_piece p f r hfs
      · have hlt := findSplit_shrinks p pc r hfs
        exact ih r (Nat.lt_of_lt_of_le hlt (Nat.lt_succ_iff.mp hp)) f hf

theorem specSplit_covers : ∀ n : Nat, ∀ p : Str, p.length < n →
    ∀ c, c ∈ p → isWS c = false → ∃ f ∈ specSplit p, c ∈ f := by
  intro n
  induction n with
  | zero => intro p h; cases h
  | succ n ih =>
    intro p hp c hc hcw
    rw [specSplit_eq]
    cases hfs : findSplit p with
    | none => exact ⟨p, List.mem_singleton_self p, hc⟩
    | some pr =>
      obtain ⟨pc, r⟩ := pr
      obtain ⟨sep, hsep, hdec⟩ := findSplit_decomp p pc r hfs
      rw [hdec] at hc
      rcases List.mem_append.mp hc with hc' | hc'
      · rcases List.mem_append.mp hc' with hc'' | hc''
        · exact ⟨pc, List.mem_cons_self _ _, hc''⟩
        · rw [hsep c hc''] at hcw
          cases hcw
      · have hlt := findSplit_shrinks p pc r hfs
        obtain ⟨f, hf, hcf⟩ :=
          ih r (Nat.lt_of_lt_of_le hlt (Nat.lt_succ_iff.mp hp)) c hc' hcw
        exact ⟨f, List.mem_cons_of_mem _ hf, hcf⟩

theorem findSplit_after_punct : ∀ l : Str, noPair l →
    ∀ p, l.getLast? = some p → isSentEnd p = true →
    ∀ c rest, isWS c = true →
    findSplit (l ++ c :: rest) = some (l, rest.dropWhile isWS)
  | [] => by
    intro _ p hp
    cases hp
  | [a] => by
    intro _ p hp hpe c rest hc
    have ha : a = p := by
      simp at hp
      exact hp
    rw [List.singleton_append, findSplit,
      if_pos (by rw [Bool.and_eq_true]; exact ⟨ha ▸ hpe, hc⟩)]
  | a :: b :: l'' => by
    intro hnp p hp hpe c rest hc
    rw [List.getLast?_cons_cons] at hp
    unfold noPair at hnp
    rw [List.chain'_cons] at hnp
    have ih := findSplit_after_punct (b :: l'') hnp.2 p hp hpe c rest hc
    have hshape : (a :: b :: l'') ++ c :: rest = a :: b :: (l'' ++ c :: rest) := by
      simp
    rw [hshape, findSplit,
      if_neg (fun hx => hnp.1 (Bool.and_eq_true _ _ |>.mp hx))]
    have hshape2 : (b :: l'') ++ c :: rest = b :: (l'' ++ c :: rest) := by simp
    rw [hshape2] at ih
    rw [ih, Option.map_some']

theorem reSplitAux_skip : ∀ s : Str,
    reSplitAux [] true s =
      (match s.dropWhile isWS with
       | [] => [([] : Str)]
       | c :: r => reSplitAux [c] false r) := by
  intro s
  induction s with
  | nil => rfl
  | cons c rest ih =>
    by_cases hc : isWS c = true
    · rw [List.dropWhile_cons_of_pos hc, ← ih]
      simp [reSplitAux, hc]
    · have hc' : isWS c = false := by simpa using hc
      rw [List.dropWhile_cons_of_neg (by simp [hc'])]
      simp [reSplitAux, hc']

theorem reSplitAux_eq_specSplit : ∀ n : Nat, ∀ s cur : Str, s.length ≤ n →
    noPair cur.reverse → reSplitAux cur false s = specSplit (cur.reverse ++ s) := by
  intro n
  induction n with
  | zero =>
    intro s cur hs hnp
    have hs0 : s = [] := by
      cases s with
      | nil => rfl
      | cons c rest => simp at hs
    subst hs0
    rw [List.append_nil, specSplit_of_noPair _ hnp]
    rfl
  | succ n ih =>
    intro s cur hs hnp
    cases s with
    | nil =>
      rw [List.append_nil, specSplit_of_noPair _ hnp]
      rfl
    | cons c rest =>
      have hrest : rest.length ≤ n := by
        simp only [List.length_cons] at hs
        omega
      by_cases hA : (isWS c && punctHead cur) = true
      · rw [Bool.and_eq_true] at hA
        obtain ⟨hWc, hPc⟩ := hA
        cases cur with
        | nil => cases hPc
        | cons p cs =>
          have hPc' : isSentEnd p = true := hPc
          have hlast : (p :: cs).reverse.getLast? = some p := by
            rw [List.getLast?_reverse]
            rfl
          have hfs := findSplit_after_punct ((p :: cs).reverse) hnp p hlast hPc' c rest hWc
          have hL : reSplitAux (p :: cs) false (c :: rest) =
              (p :: cs).reverse :: reSplitAux [] true rest := by
            simp [reSplitAux, punctHead, hWc, hPc']
          rw [hL, specSplit_eq, hfs]
          simp only []
          congr 1
          rw [reSplitAux_skip rest]
          cases hdw : rest.dropWhile isWS with
          | nil => rfl
          | cons c' r' =>
            have hlen : r'.length ≤ n := by
              have h1 : (rest.dropWhile isWS).length ≤ rest.length :=
                length_dropWhile_le isWS rest
              rw [hdw] at h1
              simp only [List.length_cons] at h1
              omega
            have hres := ih r' [c'] hlen (List.chain'_singleton c')
            simpa using hres
      · have hL : reSplitAux cur false (c :: rest) = reSplitAux (c :: cur) false rest := by
          simp only [reSplitAux]
          rw [if_neg (by simp), if_neg hA]
        rw [hL]
        have hnp' : noPair (c :: cur).reverse := by
          rw [List.reverse_cons]
          unfold noPair at hnp ⊢
          apply List.Chain'.append hnp (List.chain'_singleton c)
          intro x hx y hy
          rw [List.getLast?_reverse] at hx
          have hy' : y = c := by
            cases hy
            rfl
          subst hy'
          cases cur with
          | nil => cases hx
          | cons p cs =>
            have hx' : x = p := by
              cases hx
              rfl
            subst hx'
            intro ⟨h1, h2⟩
            rw [Bool.and_eq_true] at hA
            exact hA ⟨h2, by simpa [punctHead] using h1⟩
        have hres := ih rest (c :: cur) hrest hnp'
        rw [hres, List.reverse_cons, List.append_assoc]
        rfl

theorem regexSplit_eq_specSplit (p : Str) : regexSplit p = specSplit p := by
  have h := reSplitAux_eq_specSplit p.length p [] (Nat.le_refl _) List.chain'_nil
  simpa [regexSplit] using h

theorem trim_infixOf (l : Str) : trim l <:+: l := by
  have h1 : l.dropWhile isWS <:+ l := List.dropWhile_suffix isWS
  have h2 : (l.dropWhile isWS).reverse.dropWhile isWS <:+ (l.dropWhile isWS).reverse :=
    List.dropWhile_suffix isWS
  have h3 : trim l <+: l.dropWhile isWS := by
    unfold trim
    nth_rewrite 2 [← List.reverse_reverse (l.dropWhile isWS)]
    exact List.reverse_prefix.mpr h2
  exact h3.isInfix.trans h1.isInfix

theorem noPair_trim (l : Str) (h : noPair l) : noPair (trim l) :=
  List.Chain'.infix h (trim_infixOf l)

/-! ### C3: recap sentence splitting -/

/-- C3: for every line of the quick-recap bucket the sentence rule is: split
at each point immediately after sentence-terminal punctuation followed by
whitespace (the boundary consuming the whitespace run), trim each fragment,
drop empty fragments, and keep the whole trimmed line as one sentence when
no fragment survives; the overall recap output is the flat concatenation of
the per-line sentence lists in original order. -/
theorem c3_recap_rule :
    (∀ p, sentences_from_paragraph p = specSentences p) ∧
    (∀ lines, parse_quick_recap lines = (lines.map specSentences).flatten) := by
  have hsent : ∀ p, sentences_from_paragraph p = specSentences p := by
    intro p
    simp only [sentences_from_paragraph, specSentences, regexSplit_eq_specSplit]
  refine ⟨hsent, ?_⟩
  intro lines
  induction lines with
  | nil => rfl
  | cons l rest ih => simp [parse_quick_recap, ih, hsent l]

/-! ### C7: idempotence of sentence splitting -/

/-- C7: every sentence produced by the splitter is returned unchanged, as a
one-element list, when the splitter is applied to it again. -/
theorem c7_sentence_split_idempotent (p t : Str)
    (h : t ∈ sentences_from_paragraph p) : sentences_from_paragraph t = [t] := by
  unfold sentences_from_paragraph at h
  rw [regexSplit_eq_specSplit] at h
  by_cases hp : ((specSplit p).filterMap fun part =>
      if trim part = [] then none else some (trim part)) = []
  · rw [if_pos hp] at h
    have ht : t = trim p := by simpa using h
    have hall : ∀ f ∈ specSplit p, trim f = [] := by
      intro f hf
      have hnone := List.filterMap_eq_nil_iff.mp hp f hf
      by_contra hne
      rw [if_neg hne] at hnone
      cases hnone
    have hwp : ∀ c ∈ p, isWS c = true := by
      intro c hc
      by_contra hcw
      have hcw' : isWS c = false := by simpa using hcw
      obtain ⟨f, hf, hcf⟩ :=
        specSplit_covers (p.length + 1) p (Nat.lt_succ_self _) c hc hcw'
      have hfnil := (trim_eq_nil_iff f).mp (hall f hf)
      have hcT := hfnil c hcf
      rw [hcw'] at hcT
      cases hcT
    have htp : trim p = [] := (trim_eq_nil_iff p).mpr hwp
    rw [ht, htp]
    rfl
  · rw [if_neg hp] at h
    obtain ⟨f, hf, hft⟩ := List.mem_filterMap.mp h
    by_cases hfe : trim f = []
    · rw [if_pos hfe] at hft
      cases hft
    · rw [if_neg hfe] at hft
      have ht : t = trim f := (Option.some.inj hft).symm
      have hnpf : noPair f :=
        noPair_specSplit (p.length + 1) p (Nat.lt_succ_self _) f hf
      have hnpt : noPair t := ht ▸ noPair_trim f hnpf
      have htt : trim t = t := by rw [ht, trim_trim]
      have htne : t ≠ [] := by rw [ht]; exact hfe
      unfold sentences_from_paragraph
      rw [regexSplit_eq_specSplit, specSplit_of_noPair t hnpt]
      simp [List.filterMap_cons, htt, htne]

/-- Witness for C7 at a concrete paragraph and sentence. -/
theorem c7_sentence_split_idempotent_witness :
    (strL "It went well." ∈ sentences_from_paragraph (strL "It went well. We continue")) ∧
    sentences_from_paragraph (strL "It went well.") = [strL "It went well."] :=
  ⟨by decide, c7_sentence_split_idempotent (strL "It went well. We continue") _ (by decide)⟩

theorem ws_not_sentEnd (c : Char) (h : isWS c = true) : isSentEnd c = false := by
  by_contra hb
  have hb' : isSentEnd c = true := by simpa using hb
  simp only [isSentEnd, Bool.or_eq_true, beq_iff_eq] at hb'
  rcases hb' with (rfl | rfl) | rfl <;> exact absurd h (by decide)

theorem noPair_of_no_punct (p : Str) (h : ∀ c ∈ p, isSentEnd c = false) : noPair p := by
  unfold noPair
  induction p with
  | nil => exact List.chain'_nil
  | cons a rest ih =>
    rw [List.chain'_cons']
    refine ⟨?_, ih fun c hc => h c (List.mem_cons_of_mem _ hc)⟩
    intro y _ hcon
    obtain ⟨h1, _⟩ := hcon
    rw [h a (List.mem_cons_self _ _)] at h1
    cases h1

/-! ### C10: the splitter never returns an empty list -/

/-- C10: the sentence splitter always returns a non-empty list; on an input
that is empty or whitespace-only it returns exactly the one-element list
holding the empty string, so the recap parser emits an empty-string sentence
when handed a blank line directly. -/
theorem c10_sentence_split_nonempty :
    (∀ p, sentences_from_paragraph p ≠ []) ∧
    (∀ p, (∀ c ∈ p, isWS c = true) → sentences_from_paragraph p = [([] : Str)]) ∧
    parse_quick_recap [([] : Str)] = [([] : Str)] := by
  refine ⟨?_, ?_, by decide⟩
  · intro p
    unfold sentences_from_paragraph
    by_cases hp : ((regexSplit p).filterMap fun part =>
        if trim part = [] then none else some (trim part)) = []
    · rw [if_pos hp]
      simp
    · rw [if_neg hp]
      exact hp
  · intro p hws
    have hnp : noPair p :=
      noPair_of_no_punct p fun c hc => ws_not_sentEnd c (hws c hc)
    have htp : trim p = [] := (trim_eq_nil_iff p).mpr hws
    unfold sentences_from_paragraph
    rw [regexSplit_eq_specSplit, specSplit_of_noPair p hnp]
    simp [List.filterMap_cons, htp]

/-- Witness for C10 at a whitespace-only input. -/
theorem c10_sentence_split_nonempty_witness :
    (∀ c ∈ strL "   ", isWS c = true) ∧
    sentences_from_paragraph (strL "   ") = [([] : Str)] :=
  ⟨by decide, c10_sentence_split_nonempty.2.1 _ (by decide)⟩
